import Mathlib

set_option maxRecDepth 100000

/-!
# A shallow embedding of the Huffman file compressor (src/huffman.py)

Python trees (`HuffmanNode` from `nodes`) are modelled by an inductive type.
Only three shapes are ever constructed by the program: a leaf carrying a
symbol, an internal node with two children, and the degenerate single-symbol
root whose right child is absent (`HuffmanNode(None, left, None)`); the
latter is `node1`.  Calling a method on an absent (`None`) child raises an
`AttributeError` in Python; every function that would do so returns `none`
here.  Python `dict`s are modelled as insertion-ordered association lists
with unique keys (`dict_get` / `dict_upd`).  Bit strings (`"0"`/`"1"`
characters) are `List Nat` with entries 0/1.  `bytes(...)` construction
validates that every entry is below 256 (`mk_bytes`), and raises otherwise.
Fallible code returns `Option`; `none` models an uncaught Python exception.
-/

namespace HuffmanPy

inductive HuffmanNode where
  | leaf (symbol : Nat)
  | node1 (left : HuffmanNode)
  | node2 (left : HuffmanNode) (right : HuffmanNode)
deriving DecidableEq, Repr

/-- The `ReadNode` record from `nodes.py`: four byte-sized fields. -/
structure ReadNode where
  l_type : Nat
  l_data : Nat
  r_type : Nat
  r_data : Nat
deriving DecidableEq, Repr

/-- Python-dict lookup on an insertion-ordered association list. -/
def dict_get {κ α : Type} [DecidableEq κ] : List (κ × α) → κ → Option α
  | [], _ => none
  | (k2, v) :: rest, k => if k2 = k then some v else dict_get rest k

/-- Python-dict assignment `d[k] = v`: replace in place, or append a new key. -/
def dict_upd {κ α : Type} [DecidableEq κ] : List (κ × α) → κ → α → List (κ × α)
  | [], k, v => [(k, v)]
  | (k2, v2) :: rest, k, v =>
    if k2 = k then (k2, v) :: rest else (k2, v2) :: dict_upd rest k v

/-- Python `codes.update(other)`: assign each of `other`'s entries in order. -/
def dict_update {κ α : Type} [DecidableEq κ] (d e : List (κ × α)) : List (κ × α) :=
  e.foldl (fun acc p => dict_upd acc p.1 p.2) d

/-- Python `bytes(lst)`: succeeds only when every entry fits in one byte. -/
def mk_bytes (l : List Nat) : Option (List Nat) :=
  if l.all (fun b => decide (b < 256)) then some l else none

/-- `get_bit(byte, bit_num)`: bit number `bit_num` from the right. -/
def get_bit (byte bit_num : Nat) : Nat :=
  (byte &&& (1 <<< bit_num)) >>> bit_num

/-- `byte_to_bits(byte)`: the 8 bits of a byte, most significant first. -/
def byte_to_bits (byte : Nat) : List Nat :=
  [7, 6, 5, 4, 3, 2, 1, 0].map (get_bit byte)

/-- The sum `Σ int(bits[pos]) << (7 - pos)` of `bits_to_byte`, with `pos`
    starting at the given offset. -/
def btb_sum : List Nat → Nat → Nat
  | [], _ => 0
  | b :: rest, pos => b * 2 ^ (7 - pos) + btb_sum rest (pos + 1)

/-- `bits_to_byte(bits)`: the int represented by the bits, padded on the
    right.  A ninth bit would be shifted by `7 - 8 < 0`, a `ValueError` in
    Python, hence `none` for more than 8 bits. -/
def bits_to_byte (bits : List Nat) : Option Nat :=
  if bits.length ≤ 8 then some (btb_sum bits 0) else none

/-- `make_freq_dict(text)`: map each byte of the text to its frequency,
    keys in first-occurrence order. -/
def make_freq_dict (text : List Nat) : List (Nat × Nat) :=
  text.foldl (fun d b => dict_upd d b ((dict_get d b).getD 0 + 1)) []

/-- An entry key of the working list in `huffman_tree`: a plain symbol or an
    already-merged `HuffmanNode`. -/
inductive HKey where
  | sym (n : Nat)
  | tree (t : HuffmanNode)
deriving DecidableEq, Repr

/-- The scan of `take_min`: the earliest entry with the smallest value
    (strict `<` keeps the first minimum). -/
def scan_min : List (HKey × Nat) → (HKey × Nat) → (HKey × Nat)
  | [], best => best
  | (k, v) :: rest, best => if v < best.2 then scan_min rest (k, v) else scan_min rest best

/-- `take_min(lst)`: the minimal entry together with the list after
    `lst.remove` of it (first equal occurrence removed); `none` models the
    `IndexError` of `lst[0]` on an empty list. -/
def take_min (lst : List (HKey × Nat)) : Option ((HKey × Nat) × List (HKey × Nat)) :=
  match lst with
  | [] => none
  | first :: _ =>
    let m := scan_min lst first
    some (m, lst.erase m)

/-- `isinstance` dispatch in the merge loop: a node is used as is, a plain
    symbol is wrapped in a leaf. -/
def to_node : HKey → HuffmanNode
  | .sym n => .leaf n
  | .tree t => t

/-- The `while len(freq) != 1` merge loop of `huffman_tree`, with the list
    length as fuel (each pass shortens the list by one, so the initial length
    is always enough; running out only happens on the empty list, where
    Python raises in `take_min`). -/
def hloop : Nat → List (HKey × Nat) → Option HuffmanNode
  | 0, _ => none
  | fuel + 1, freq =>
    match take_min freq with
    | none => none
    | some (x, r1) =>
      match take_min r1 with
      | none => none
      | some (y, r2) =>
        let root := HuffmanNode.node2 (to_node x.1) (to_node y.1)
        let r3 := r2 ++ [(HKey.tree root, x.2 + y.2)]
        if r3.length = 1 then some root else hloop fuel r3

/-- `huffman_tree(freq_dict)`: a single distinct symbol yields the degenerate
    root with an absent right child; otherwise the merge loop runs (an empty
    dict raises inside `take_min`). -/
def huffman_tree (freq_dict : List (Nat × Nat)) : Option HuffmanNode :=
  match freq_dict with
  | [(s, _)] => some (HuffmanNode.node1 (HuffmanNode.leaf s))
  | _ =>
    let freq := freq_dict.map (fun p => (HKey.sym p.1, p.2))
    hloop freq.length freq

/-- `get_codes(tree)`: symbol-to-code dict.  On a leaf the Python code reads
    `tree.left.is_leaf()` with `tree.left = None` and raises; on the
    degenerate `node1` root it raises at `tree.right.is_leaf()` after the
    left half, so both are `none`. -/
def get_codes : HuffmanNode → Option (List (Nat × List Nat))
  | .leaf _ => none
  | .node1 _ => none
  | .node2 l r =>
    match (match l with
           | .leaf s => some [(s, [0])]
           | _ =>
             (get_codes l).map
               (fun (cs : List (Nat × List Nat)) => cs.map (fun p => (p.1, 0 :: p.2)))) with
    | none => none
    | some codesL =>
      match r with
      | .leaf s => some (dict_upd codesL s [1])
      | _ =>
        match get_codes r with
        | none => none
        | some csR =>
          some (dict_update codesL
            (csR.map (fun (p : Nat × List Nat) => (p.1, 1 :: p.2))))

/-- `numbering(tree, n)` (the worker of `number_nodes`): postorder-number the
    internal nodes starting at `n`, returning the next free number; the tree
    mutation is modelled by the returned counter (an internal node's number is
    the counter after both children, and the root of a subtree numbered from
    `n` ends with counter `result - 1` as its own number).  On the degenerate
    `node1` shape Python calls `numbering(None, n)` and raises. -/
def numbering : HuffmanNode → Nat → Option Nat
  | .leaf _, n => some n
  | .node1 _, _ => none
  | .node2 l r, n =>
    match numbering l n with
    | none => none
    | some n1 =>
      match numbering r n1 with
      | none => none
      | some n2 => some (n2 + 1)

/-- One child's contribution in `tree_to_bytes`: a leaf child contributes no
    records and the fields `(0, symbol)`; an internal child contributes its
    own records (`res`, the recursive serialization from counter `n`) and the
    fields `(1, number)` with its number the advanced counter minus one. -/
def child_part (c : HuffmanNode) (n : Nat) (res : Option (List ReadNode × Nat)) :
    Option (List ReadNode × Nat × Nat × Nat) :=
  match c with
  | .leaf s => some (([] : List ReadNode), n, 0, s)
  | _ =>
    match res with
    | none => none
    | some (recs, n1) => some (recs, n1, 1, n1 - 1)

/-- The composition of `number_nodes` and `tree_to_bytes`, with the postorder
    counter passed explicitly instead of stored in mutable `number` fields:
    given the next free postorder number `n`, return the subtree's records
    and the counter after the subtree.  Called on a leaf, Python reads
    `tree.left.is_leaf()` with `tree.left = None` and raises; on `node1` it
    raises at `tree.right.is_leaf()`. -/
def ttb_aux : HuffmanNode → Nat → Option (List ReadNode × Nat)
  | .leaf _, _ => none
  | .node1 _, _ => none
  | .node2 l r, n =>
    match child_part l n (ttb_aux l n) with
    | none => none
    | some (recsL, n1, lt, ld) =>
      match child_part r n1 (ttb_aux r n1) with
      | none => none
      | some (recsR, n2, rt, rd) =>
        some (recsL ++ recsR ++ [⟨lt, ld, rt, rd⟩], n2 + 1)

/-- `tree_to_bytes(tree)` on a numbered tree: the flat record bytes. -/
def tree_to_bytes (t : HuffmanNode) : Option (List Nat) :=
  match ttb_aux t 0 with
  | none => none
  | some (recs, _) =>
    mk_bytes (recs.foldr (fun x acc => x.l_type :: x.l_data :: x.r_type :: x.r_data :: acc) [])

/-- `size_to_bytes(size)`: 4-byte little-endian; `int.to_bytes` raises
    `OverflowError` at 2^32. -/
def size_to_bytes (size : Nat) : Option (List Nat) :=
  if size < 4294967296 then
    some [size % 256, size / 256 % 256, size / 65536 % 256, size / 16777216 % 256]
  else none

/-- The byte-emission loop of `generate_compressed`: `byte` is the running
    bit buffer, `y` the bytes emitted so far.  A missing code raises
    `KeyError`; a final buffer longer than 8 bits raises inside
    `bits_to_byte`. -/
def gc_loop (codes : List (Nat × List Nat)) : List Nat → List Nat → List Nat → Option (List Nat)
  | [], byte, y =>
    match bits_to_byte byte with
    | none => none
    | some b => mk_bytes (y ++ [b])
  | i :: rest, byte, y =>
    match dict_get codes i with
    | none => none
    | some c =>
      if 8 < byte.length + c.length then
        match bits_to_byte ((byte ++ c).take 8) with
        | none => none
        | some e => gc_loop codes rest ((byte ++ c).drop 8) (y ++ [e])
      else gc_loop codes rest (byte ++ c) y

/-- `generate_compressed(text, codes)`. -/
def generate_compressed (text : List Nat) (codes : List (Nat × List Nat)) : Option (List Nat) :=
  gc_loop codes text [] []

/-- `avg_length(tree, freq_dict)` is called by `compress` only for a printed
    diagnostic; its value is unused, but it can raise: a `KeyError` when a
    coded symbol is missing from the frequency dict, and a
    `ZeroDivisionError` when the summed total is zero.  This returns the
    total so that `compress` can fail exactly when `avg_length` would. -/
def avg_length_total (codes : List (Nat × List Nat)) (freq : List (Nat × Nat)) : Option Nat :=
  match codes.foldl
      (fun acc p =>
        match acc, dict_get freq p.1 with
        | some t, some f => some (t + f)
        | _, _ => none)
      (some 0) with
  | none => none
  | some t => if t = 0 then none else some t

/-- `compress` restricted to the codec core: file I/O stripped, the in-memory
    input buffer mapped to the in-memory container.  The stage order follows
    the source: frequencies, tree, codes, numbering, the `avg_length`
    diagnostic, then container assembly (`num_nodes_to_bytes` is
    `bytes([tree.number + 1])`, i.e. the numbering counter). -/
def compress (text : List Nat) : Option (List Nat) :=
  let freq := make_freq_dict text
  match huffman_tree freq with
  | none => none
  | some tree =>
    match get_codes tree with
    | none => none
    | some codes =>
      match numbering tree 0 with
      | none => none
      | some n =>
        match avg_length_total codes freq with
        | none => none
        | some _ =>
          match mk_bytes [n] with
          | none => none
          | some nb =>
            match tree_to_bytes tree with
            | none => none
            | some tb =>
              match size_to_bytes text.length with
              | none => none
              | some sb =>
                match generate_compressed text codes with
                | none => none
                | some gc => some (nb ++ tb ++ sb ++ gc)

/-- `generate_tree_general(node_lst, root_index)` with explicit recursion
    fuel.  A record path longer than the table necessarily revisits an index
    and loops without bound — a `RecursionError` in Python, `none` here — so
    `length + 1` fuel is always enough for the terminating executions.
    A nonzero type field (Python truthiness) makes the data an index. -/
def gtg_fuel : Nat → List ReadNode → Nat → Option HuffmanNode
  | 0, _, _ => none
  | fuel + 1, lst, i =>
    match lst[i]? with
    | none => none
    | some x =>
      match (if x.l_type ≠ 0 then gtg_fuel fuel lst x.l_data
             else some (HuffmanNode.leaf x.l_data)) with
      | none => none
      | some left =>
        match (if x.r_type ≠ 0 then gtg_fuel fuel lst x.r_data
               else some (HuffmanNode.leaf x.r_data)) with
        | none => none
        | some right => some (HuffmanNode.node2 left right)

/-- `generate_tree_general(node_lst, root_index)`. -/
def generate_tree_general (node_lst : List ReadNode) (root_index : Nat) : Option HuffmanNode :=
  gtg_fuel (node_lst.length + 1) node_lst root_index

/-- `q.pop(0)` on the auxiliary queue: `none` is the `IndexError` on an
    empty queue. -/
def pop_front : List HuffmanNode → Option (HuffmanNode × List HuffmanNode)
  | [] => none
  | h :: t => some (h, t)

/-- The record loop of `generate_tree_postorder`: each record takes its
    internal children from the FRONT of the queue (`q.pop(0)`), left first,
    and appends the new node at the back. -/
def gtp_loop : List ReadNode → List HuffmanNode → Option (List HuffmanNode)
  | [], q => some q
  | x :: rest, q =>
    match (if x.l_type = 1 then pop_front q else some (HuffmanNode.leaf x.l_data, q)) with
    | none => none
    | some (left, q1) =>
      match (if x.r_type = 1 then pop_front q1 else some (HuffmanNode.leaf x.r_data, q1)) with
      | none => none
      | some (right, q2) => gtp_loop rest (q2 ++ [HuffmanNode.node2 left right])

/-- `generate_tree_postorder(node_lst, root_index)`: the loop never consults
    `root_index`; the result is `q[0]` (`IndexError`, i.e. `none`, when the
    queue ends empty). -/
def generate_tree_postorder (node_lst : List ReadNode) (root_index : Int) : Option HuffmanNode :=
  match gtp_loop node_lst [] with
  | some (h :: _) => some h
  | _ => none

/-- Python slice `code[start:stop]` (clamped at the ends). -/
def slice (code : List Nat) (start stop : Nat) : List Nat :=
  (code.drop start).take (stop - start)

/-- The innermost window-growing loop of `generate_uncompressed`: starting
    from `counter`, grow the window `code[start:counter]` until it is a key
    of `rev`; `some c` is the matching counter, `none` means the window ran
    past the end (`short = True`, leaving `counter = len(code) + 1`).  The
    fuel argument counts the remaining window growths (`length + 1 - counter`
    at entry), so it never runs out on the Python-reachable states, where
    `counter ≤ len(code)`. -/
def fm_fuel (rev : List (List Nat × Nat)) (code : List Nat) (start : Nat) :
    Nat → Nat → Option Nat
  | 0, _ => none
  | f + 1, counter =>
    if (dict_get rev (slice code start counter)).isSome then some counter
    else if code.length < counter + 1 then none
    else fm_fuel rev code start f (counter + 1)

/-- The middle loop of `generate_uncompressed` (`while not short and
    len(decode) < size`): repeatedly match and emit a symbol; returns the
    decoded list with the updated `start` and `counter`.  Every pass appends
    one symbol while `len(decode) < size`, so `size + 1 - len(decode)` fuel
    never runs out (the fuel-0 branch coincides with the `len ≥ size` exit). -/
def decode_fuel (rev : List (List Nat × Nat)) (code : List Nat) (size : Nat) :
    Nat → Nat → Nat → List Nat → List Nat × Nat × Nat
  | 0, start, counter, decode => (decode, start, counter)
  | f + 1, start, counter, decode =>
    if decode.length < size then
      match fm_fuel rev code start (code.length + 1 - counter) counter with
      | none => (decode, start, code.length + 1)
      | some c =>
        match dict_get rev (slice code start c) with
        | none => (decode, start, c)
        | some sym => decode_fuel rev code size f c c (decode ++ [sym])
    else (decode, start, counter)

/-- The outer byte loop of `generate_uncompressed` (`while len(decode) < size
    and index < len(text)`): append the next byte's bits to `code` and run
    the middle loop; `start` and `counter` persist across bytes. -/
def gu_outer (rev : List (List Nat × Nat)) (size : Nat) :
    List Nat → List Nat → Nat → Nat → List Nat → List Nat
  | [], _, _, _, decode => decode
  | b :: rest, code, start, counter, decode =>
    if decode.length < size then
      let code2 := code ++ byte_to_bits b
      match decode_fuel rev code2 size (size + 1 - decode.length) start counter decode with
      | (d2, s2, c2) => gu_outer rev size rest code2 s2 c2 d2
    else decode

/-- `generate_uncompressed(tree, text, size)`: build the code dict from the
    tree, invert it (`reverse[value] = key`), then decode bit-by-bit;
    the final `bytes(decode)` validates the symbol range. -/
def generate_uncompressed (tree : HuffmanNode) (text : List Nat) (size : Nat) :
    Option (List Nat) :=
  match get_codes tree with
  | none => none
  | some freq =>
    let reverse := freq.foldl (fun acc p => dict_upd acc p.2 p.1) []
    mk_bytes (gu_outer reverse size text [] 0 1 [])

/-- `bytes_to_nodes(buf)`: group the bytes four at a time; a trailing group
    of 1-3 bytes raises `IndexError` on `buf[i+1]`..`buf[i+3]`. -/
def bytes_to_nodes : List Nat → Option (List ReadNode)
  | [] => some []
  | a :: b :: c :: d :: rest =>
    match bytes_to_nodes rest with
    | none => none
    | some l => some (ReadNode.mk a b c d :: l)
  | _ => none

/-- `bytes_to_size(buf)`: little-endian value of the bytes. -/
def bytes_to_size : List Nat → Nat
  | [] => 0
  | b :: rest => b + 256 * bytes_to_size rest

/-- `uncompress` restricted to the codec core, file handles replaced by the
    in-memory container.  Reads mirror the sequential `f.read` calls: one
    count byte (empty file raises on `f.read(1)[0]`), up to `count*4` record
    bytes, the tree via the index-addressed strategy rooted at `count - 1`
    (with `count = 0` the root index is Python `-1` on an empty list:
    `IndexError`), 4 size bytes, then the bitstream. -/
def uncompress (file : List Nat) : Option (List Nat) :=
  match file with
  | [] => none
  | num_nodes :: rest =>
    match bytes_to_nodes (rest.take (num_nodes * 4)) with
    | none => none
    | some node_lst =>
      if num_nodes = 0 then none
      else
        match generate_tree_general node_lst (num_nodes - 1) with
        | none => none
        | some tree =>
          let rest2 := rest.drop (num_nodes * 4)
          generate_uncompressed tree (rest2.drop 4) (bytes_to_size (rest2.take 4))

/-! ## Specification-side definitions

The following definitions follow the wording of the specification (not the
source); they exist to be compared with the source-derived functions above. -/

/-- Modelled from the spec (§4.5, packer): the MSB-first concatenation of
    the codes of the input bytes.  `none` when a byte has no code. -/
def bits_of_text (codes : List (Nat × List Nat)) : List Nat → Option (List Nat)
  | [] => some []
  | i :: rest =>
    match dict_get codes i, bits_of_text codes rest with
    | some c, some bs => some (c ++ bs)
    | _, _ => none

/-- Split a bit list into 8-bit chunks, the last one possibly shorter (the
    fuel is the list length, always sufficient). -/
def chunk8F : Nat → List Nat → List (List Nat)
  | 0, _ => []
  | _ + 1, [] => []
  | f + 1, a :: bs => ((a :: bs).take 8) :: chunk8F f ((a :: bs).drop 8)

/-- Modelled from the spec (§4.5): pack the concatenated codes into bytes,
    the final partial chunk right-padded with zero bits (`btb_sum` pads by
    construction).  This is the claim's description of the packer, for
    comparison with `generate_compressed`. -/
def pack_spec (codes : List (Nat × List Nat)) (text : List Nat) : Option (List Nat) :=
  match bits_of_text codes text with
  | none => none
  | some bs => some ((chunk8F bs.length bs).map (fun c => btb_sum c 0))

/-- Modelled from the spec (§8, optimality): the weighted total
    `Σ freq(s) · len(code(s))` of a code table. -/
def weighted_length (freq : List (Nat × Nat)) (codes : List (Nat × List Nat)) : Nat :=
  codes.foldl (fun acc p => acc + ((dict_get freq p.1).getD 0) * p.2.length) 0

/-! ## Concrete instances shared by the claim theorems -/

/-- The spec's packer-example code table `{0: "0", 1: "10", 2: "11"}`. -/
def codes012 : List (Nat × List Nat) := [(0, [0]), (1, [1, 0]), (2, [1, 1])]

/-- A five-symbol frequency dict whose Huffman tree breaks the
    postorder-implicit reconstruction. -/
def exFreq : List (Nat × Nat) := [(97, 2), (98, 2), (99, 2), (100, 1), (101, 1)]

/-- The tree the builder produces from `exFreq`. -/
def exTree : HuffmanNode :=
  .node2 (.node2 (.leaf 97) (.leaf 98))
         (.node2 (.leaf 99) (.node2 (.leaf 100) (.leaf 101)))

/-- The serialized record table of `exTree` (postorder, root numbered 3). -/
def exRecs : List ReadNode :=
  [⟨0, 97, 0, 98⟩, ⟨0, 100, 0, 101⟩, ⟨0, 99, 1, 1⟩, ⟨1, 0, 1, 2⟩]

/-- The textbook weight set of the optimality claim. -/
def freq6 : List (Nat × Nat) := [(0, 5), (1, 9), (2, 12), (3, 13), (4, 16), (5, 45)]

/-- A container whose declared symbol count (100) exceeds what its one-byte
    bitstream can produce. -/
def exhaustedContainer : List Nat :=
  [2, 0, 65, 0, 67, 0, 66, 1, 0, 100, 0, 0, 0, 152]

/-! ## Proof-layer definitions

Structural descriptions of what `ttb_aux` computes on full binary trees and
of the byte chunks the packer emits; used to state and prove the inductive
lemmas. -/

/-- Number of internal nodes of a (full binary) tree. -/
def icount : HuffmanNode → Nat
  | .leaf _ => 0
  | .node1 _ => 0
  | .node2 l r => icount l + icount r + 1

/-- The record half for one child: a leaf stores `(0, symbol)`, an internal
    child stores `(1, number)` where its number is the postorder counter
    after the child minus one. -/
def childField : HuffmanNode → Nat → Nat × Nat
  | .leaf s, _ => (0, s)
  | _, nafter => (1, nafter - 1)

/-- The record table `ttb_aux` produces on a full binary tree whose subtree
    numbering starts at `base`. -/
def serPost : HuffmanNode → Nat → List ReadNode
  | .leaf _, _ => []
  | .node1 _, _ => []
  | .node2 l r, base =>
    serPost l base ++ serPost r (base + icount l) ++
      [⟨(childField l (base + icount l)).1, (childField l (base + icount l)).2,
        (childField r (base + icount l + icount r)).1,
        (childField r (base + icount l + icount r)).2⟩]

/-- The bytes the packer's loop appends for a final buffer-plus-bits run:
    8-bit chunks, the trailing (possibly empty) chunk padded by `btb_sum`. -/
def gc_chunks (bs : List Nat) : List Nat :=
  match bs with
  | [] => [0]
  | _ => (chunk8F bs.length bs).map (fun c => btb_sum c 0)

/-! ## Helper lemmas -/

theorem mk_bytes_some {l out : List Nat} (h : mk_bytes l = some out) : out = l := by
  unfold mk_bytes at h
  split at h
  · exact (Option.some.inj h).symm
  · exact absurd h (by simp)

/-- The middle decode loop appends a symbol only while `len(decode) < size`,
    so it never pushes the decoded list past `size`. -/
theorem decode_fuel_length (rev : List (List Nat × Nat)) (code : List Nat) (size : Nat) :
    ∀ (f start counter : Nat) (d : List Nat), d.length ≤ size →
      (decode_fuel rev code size f start counter d).1.length ≤ size := by
  intro f
  induction f with
  | zero => intro start counter d h; simpa [decode_fuel] using h
  | succ f ih =>
    intro start counter d h
    simp only [decode_fuel]
    split
    · rename_i hlt
      cases hfm : fm_fuel rev code start (code.length + 1 - counter) counter with
      | none => simpa using h
      | some c =>
        cases hg : dict_get rev (slice code start c) with
        | none => simp only [hg]; simpa using h
        | some sym =>
          have := ih c c (d ++ [sym]) (by simpa using Nat.succ_le_of_lt hlt)
          simp only [hg]
          simpa using this
    · simpa using h

/-- The outer byte loop preserves the decoded-length bound. -/
theorem gu_outer_length (rev : List (List Nat × Nat)) (size : Nat) :
    ∀ (text code : List Nat) (start counter : Nat) (d : List Nat), d.length ≤ size →
      (gu_outer rev size text code start counter d).length ≤ size := by
  intro text
  induction text with
  | nil => intro code start counter d h; simpa [gu_outer] using h
  | cons b rest ih =>
    intro code start counter d h
    simp only [gu_outer]
    split
    · exact ih _ _ _ _ (decode_fuel_length rev (code ++ byte_to_bits b) size
        (size + 1 - d.length) start counter d h)
    · simpa using h

/-- Full binary trees: every internal node has both children.  This is the
    shape `hloop` produces (the degenerate `node1` root arises only from the
    single-entry special case of `huffman_tree`). -/
inductive FullB : HuffmanNode → Prop
  | leaf (s : Nat) : FullB (.leaf s)
  | node {l r : HuffmanNode} : FullB l → FullB r → FullB (.node2 l r)

theorem scan_min_mem : ∀ (l : List (HKey × Nat)) (b : HKey × Nat),
    scan_min l b = b ∨ scan_min l b ∈ l := by
  intro l
  induction l with
  | nil => intro b; exact Or.inl rfl
  | cons p rest ih =>
    intro b
    obtain ⟨k, v⟩ := p
    simp only [scan_min]
    split
    · rcases ih (k, v) with h | h
      · rw [h]; exact Or.inr (List.mem_cons_self _ _)
      · exact Or.inr (List.mem_cons_of_mem _ h)
    · rcases ih b with h | h
      · exact Or.inl h
      · exact Or.inr (List.mem_cons_of_mem _ h)

theorem take_min_eq {lst : List (HKey × Nat)} {p : HKey × Nat} {rest : List (HKey × Nat)}
    (h : take_min lst = some (p, rest)) : p ∈ lst ∧ rest = lst.erase p := by
  cases lst with
  | nil => exact absurd h (by simp [take_min])
  | cons first tl =>
    simp only [take_min, Option.some.injEq, Prod.mk.injEq] at h
    obtain ⟨h1, h2⟩ := h
    subst h1
    refine ⟨?_, h2.symm⟩
    rcases scan_min_mem (first :: tl) first with h | h
    · rw [h]; exact List.mem_cons_self _ _
    · exact h

theorem to_node_full {lst : List (HKey × Nat)}
    (inv : ∀ p ∈ lst, ∀ t0, p.1 = HKey.tree t0 → FullB t0)
    {p : HKey × Nat} (hp : p ∈ lst) : FullB (to_node p.1) := by
  cases hk : p.1 with
  | sym n => simp only [to_node]; exact FullB.leaf n
  | tree t => simp only [to_node]; exact inv p hp t hk

/-- Whatever the merge loop returns is a full binary internal node, provided
    every already-merged node in the working list is full binary. -/
theorem hloop_full : ∀ (fuel : Nat) (lst : List (HKey × Nat)) (t : HuffmanNode),
    (∀ p ∈ lst, ∀ t0, p.1 = HKey.tree t0 → FullB t0) →
    hloop fuel lst = some t →
    FullB t ∧ ∃ l r, t = HuffmanNode.node2 l r := by
  intro fuel
  induction fuel with
  | zero => intro lst t _ h; exact absurd h (by simp [hloop])
  | succ fuel ih =>
    intro lst t inv h
    simp only [hloop] at h
    cases h1 : take_min lst with
    | none => rw [h1] at h; exact absurd h (by simp)
    | some pr1 =>
      obtain ⟨x, r1⟩ := pr1
      rw [h1] at h
      simp only at h
      cases h2 : take_min r1 with
      | none => rw [h2] at h; exact absurd h (by simp)
      | some pr2 =>
        obtain ⟨y, r2⟩ := pr2
        rw [h2] at h
        simp only at h
        obtain ⟨hx, hr1⟩ := take_min_eq h1
        obtain ⟨hy, hr2⟩ := take_min_eq h2
        have hr1sub : r1 ⊆ lst := by rw [hr1]; exact List.erase_subset _ _
        have hr2sub : r2 ⊆ r1 := by rw [hr2]; exact List.erase_subset _ _
        have hfl : FullB (to_node x.1) := to_node_full inv hx
        have hfr : FullB (to_node y.1) := to_node_full inv (hr1sub hy)
        have hfroot : FullB (HuffmanNode.node2 (to_node x.1) (to_node y.1)) :=
          FullB.node hfl hfr
        split at h
        · obtain rfl := Option.some.inj h
          exact ⟨hfroot, _, _, rfl⟩
        · refine ih _ t ?_ h
          intro p hp t0 hpt
          rcases List.mem_append.mp hp with hp2 | hp2
          · exact inv p (hr1sub (hr2sub hp2)) t0 hpt
          · have hpe : p = (HKey.tree (HuffmanNode.node2 (to_node x.1) (to_node y.1)),
                x.2 + y.2) := by simpa using hp2
            rw [hpe] at hpt
            simp only at hpt
            obtain rfl := HKey.tree.inj hpt
            exact hfroot

theorem serPost_length : ∀ (t : HuffmanNode) (base : Nat),
    (serPost t base).length = icount t := by
  intro t
  induction t with
  | leaf s => intro base; simp [serPost, icount]
  | node1 l ihl => intro base; simp [serPost, icount]
  | node2 l r ihl ihr =>
    intro base
    simp [serPost, icount, ihl, ihr]
    omega

theorem getElem?_pre {α : Type} {A : List α} (B : List α) {j : Nat} (hj : j < A.length) :
    (A ++ B)[j]? = A[j]? := by
  rw [List.getElem?_append]
  exact if_pos hj

theorem getElem?_mid {α : Type} (A : List α) {B : List α} (C : List α) {j : Nat}
    (hj : j < B.length) : (A ++ B ++ C)[A.length + j]? = B[j]? := by
  rw [List.append_assoc, List.getElem?_append_right (Nat.le_add_right _ _),
    Nat.add_sub_cancel_left, List.getElem?_append]
  exact if_pos hj

theorem getElem?_last {α : Type} (A B : List α) (x : α) :
    (A ++ B ++ [x])[A.length + B.length]? = some x := by
  rw [List.append_assoc, List.getElem?_append_right (Nat.le_add_right _ _),
    Nat.add_sub_cancel_left]
  exact List.getElem?_concat_length B x

/-- On a full binary internal tree, the serializer succeeds and produces
    exactly the structural record table `serPost`, with the counter advanced
    by the number of internal nodes. -/
theorem ttb_agree : ∀ {t : HuffmanNode}, FullB t →
    ∀ (l0 r0 : HuffmanNode), t = .node2 l0 r0 →
    ∀ base : Nat, ttb_aux t base = some (serPost t base, base + icount t) := by
  intro t hf
  induction hf with
  | leaf s => intro l0 r0 heq; exact absurd heq (by simp)
  | node hl hr ihl ihr =>
    rename_i l r
    intro l0 r0 heq base
    clear heq
    rw [ttb_aux.eq_3]
    cases hl with
    | leaf s1 =>
      cases hr with
      | leaf s2 =>
        simp [child_part, serPost, icount, childField]
      | node hrl hrr =>
        rename_i rl rr
        have hR := ihr rl rr rfl base
        simp only [child_part, hR]
        simp [serPost, icount, childField]
        omega
    | node hll hlr =>
      rename_i ll lr
      have hL := ihl ll lr rfl base
      have hR2 := fun rl rr (h : r = HuffmanNode.node2 rl rr) =>
        ihr rl rr h (base + icount (HuffmanNode.node2 ll lr))
      cases hr with
      | leaf s2 =>
        simp only [child_part, hL]
        simp [serPost, icount, childField]
        omega
      | node hrl hrr =>
        rename_i rl rr
        have hR := hR2 rl rr rfl
        simp only [child_part, hL, hR]
        simp [serPost, icount, childField]
        omega

/-- The index-addressed reconstruction rebuilds every full binary internal
    tree from any record table containing its `serPost` records at offset
    `base`, rooted at the subtree's own number, provided the fuel covers the
    subtree's internal-node count. -/
theorem gtg_serPost : ∀ {t : HuffmanNode}, FullB t →
    ∀ (l0 r0 : HuffmanNode), t = .node2 l0 r0 →
    ∀ (base : Nat) (recs : List ReadNode) (fuel : Nat),
      (∀ j, j < icount t → recs[base + j]? = (serPost t base)[j]?) →
      icount t ≤ fuel →
      gtg_fuel fuel recs (base + icount t - 1) = some t := by
  intro t hf
  induction hf with
  | leaf s => intro l0 r0 heq; exact absurd heq (by simp)
  | node hl hr ihl ihr =>
    rename_i l r
    intro l0 r0 heq base recs fuel hwin hfuel
    clear heq
    obtain ⟨f, rfl⟩ : ∃ f, fuel = f + 1 := by
      cases fuel with
      | zero => exact absurd hfuel (by simp [icount])
      | succ f => exact ⟨f, rfl⟩
    have hLlen : (serPost l base).length = icount l := serPost_length l base
    have hRlen : (serPost r (base + icount l)).length = icount r :=
      serPost_length r (base + icount l)
    set own : ReadNode :=
      ⟨(childField l (base + icount l)).1, (childField l (base + icount l)).2,
       (childField r (base + icount l + icount r)).1,
       (childField r (base + icount l + icount r)).2⟩ with own_def
    have hown : recs[base + (icount l + icount r)]? = some own := by
      have h1 := hwin (icount l + icount r) (by simp only [icount]; omega)
      rw [h1]
      show (serPost (HuffmanNode.node2 l r) base)[icount l + icount r]? = some own
      simp only [serPost]
      have h2 := getElem?_last (serPost l base) (serPost r (base + icount l)) own
      rw [hLlen, hRlen] at h2
      exact h2
    have hwin_l : ∀ j, j < icount l → recs[base + j]? = (serPost l base)[j]? := by
      intro j hj
      have h1 := hwin j (by simp only [icount]; omega)
      rw [h1]
      show (serPost (HuffmanNode.node2 l r) base)[j]? = _
      simp only [serPost]
      rw [getElem?_pre _ (by rw [List.length_append, hLlen, hRlen]; omega)]
      exact getElem?_pre _ (by rw [hLlen]; omega)
    have hwin_r : ∀ j, j < icount r →
        recs[base + icount l + j]? = (serPost r (base + icount l))[j]? := by
      intro j hj
      have h1 := hwin (icount l + j) (by simp only [icount]; omega)
      have h2 : base + (icount l + j) = base + icount l + j := by omega
      rw [h2] at h1
      rw [h1]
      show (serPost (HuffmanNode.node2 l r) base)[icount l + j]? = _
      simp only [serPost]
      have h3 := getElem?_mid (serPost l base) [own] (by rw [hRlen]; exact hj)
      rw [hLlen] at h3
      exact h3
    have hidx : base + icount (HuffmanNode.node2 l r) - 1 = base + (icount l + icount r) := by
      simp only [icount]; omega
    have hGL : (if own.l_type ≠ 0 then gtg_fuel f recs own.l_data
                else some (HuffmanNode.leaf own.l_data)) = some l := by
      cases hl with
      | leaf s1 => simp [own_def, childField]
      | node hll hlr =>
        rename_i ll lr
        have hrec := ihl ll lr rfl base recs f hwin_l
          (by simp only [icount] at hfuel ⊢; omega)
        simp only [own_def, childField]
        simpa using hrec
    have hGR : (if own.r_type ≠ 0 then gtg_fuel f recs own.r_data
                else some (HuffmanNode.leaf own.r_data)) = some r := by
      cases hr with
      | leaf s2 => simp [own_def, childField]
      | node hrl hrr =>
        rename_i rl rr
        have hrec := ihr rl rr rfl (base + icount l) recs f hwin_r
          (by simp only [icount] at hfuel ⊢; omega)
        simp only [own_def, childField]
        simpa using hrec
    rw [hidx]
    simp only [gtg_fuel]
    rw [hown]
    simp only [hGL, hGR]

theorem dict_get_mem {κ α : Type} [DecidableEq κ] :
    ∀ (d : List (κ × α)) (k : κ) (v : α), dict_get d k = some v → (k, v) ∈ d := by
  intro d
  induction d with
  | nil => intro k v h; exact absurd h (by simp [dict_get])
  | cons p rest ih =>
    intro k v h
    obtain ⟨k2, v2⟩ := p
    simp only [dict_get] at h
    split at h
    · rename_i heq
      obtain rfl := Option.some.inj h
      subst heq
      exact List.mem_cons_self _ _
    · exact List.mem_cons_of_mem _ (ih k v h)

theorem btb_lt : ∀ (bits : List Nat) (pos : Nat), (∀ b ∈ bits, b ≤ 1) →
    bits.length + pos ≤ 8 → btb_sum bits pos < 2 ^ (8 - pos) := by
  intro bits
  induction bits with
  | nil =>
    intro pos _ _
    simp only [btb_sum]
    exact Nat.pos_pow_of_pos _ (by norm_num)
  | cons b rest ih =>
    intro pos hb hlen
    simp only [btb_sum]
    have hlen2 : rest.length + (pos + 1) ≤ 8 := by
      simp only [List.length_cons] at hlen; omega
    have hpos : pos ≤ 7 := by simp only [List.length_cons] at hlen; omega
    have h1 : btb_sum rest (pos + 1) < 2 ^ (7 - pos) := by
      have := ih (pos + 1) (fun x hx => hb x (List.mem_cons_of_mem _ hx)) hlen2
      have he : 8 - (pos + 1) = 7 - pos := by omega
      rwa [he] at this
    have hbb : b ≤ 1 := hb b (List.mem_cons_self _ _)
    have h3 : b * 2 ^ (7 - pos) ≤ 2 ^ (7 - pos) := by
      calc b * 2 ^ (7 - pos) ≤ 1 * 2 ^ (7 - pos) := Nat.mul_le_mul_right _ hbb
        _ = 2 ^ (7 - pos) := one_mul _
    have h2 : 2 ^ (8 - pos) = 2 ^ (7 - pos) + 2 ^ (7 - pos) := by
      have he : 8 - pos = (7 - pos) + 1 := by omega
      rw [he, pow_succ]
      omega
    calc b * 2 ^ (7 - pos) + btb_sum rest (pos + 1)
        < b * 2 ^ (7 - pos) + 2 ^ (7 - pos) := Nat.add_lt_add_left h1 _
      _ ≤ 2 ^ (7 - pos) + 2 ^ (7 - pos) := Nat.add_le_add_right h3 _
      _ = 2 ^ (8 - pos) := h2.symm

theorem chunk8F_nil : ∀ f, chunk8F f ([] : List Nat) = [] := by
  intro f
  cases f with
  | zero => rfl
  | succ f => rfl

theorem chunk8F_fuel : ∀ (f1 : Nat) (bs : List Nat) (f2 : Nat),
    bs.length ≤ f1 → bs.length ≤ f2 → chunk8F f1 bs = chunk8F f2 bs := by
  intro f1
  induction f1 with
  | zero =>
    intro bs f2 h1 _
    have hb : bs = [] := List.eq_nil_of_length_eq_zero (Nat.le_zero.mp h1)
    subst hb
    rw [chunk8F_nil, chunk8F_nil]
  | succ f1 ih =>
    intro bs f2 h1 h2
    cases bs with
    | nil => rw [chunk8F_nil, chunk8F_nil]
    | cons a bs2 =>
      cases f2 with
      | zero => simp at h2
      | succ f2 =>
        simp only [chunk8F]
        congr 1
        apply ih
        · simp only [List.length_cons] at h1
          simp only [List.length_drop, List.length_cons]
          omega
        · simp only [List.length_cons] at h2
          simp only [List.length_drop, List.length_cons]
          omega

theorem gc_chunks_short (bs : List Nat) (h : bs.length ≤ 8) :
    gc_chunks bs = [btb_sum bs 0] := by
  cases bs with
  | nil => simp [gc_chunks, btb_sum]
  | cons a bs2 =>
    simp only [gc_chunks, List.length_cons]
    simp only [chunk8F]
    rw [List.take_of_length_le (by simpa using h),
      List.drop_eq_nil_of_le (by simpa using h), chunk8F_nil]
    simp

theorem gc_chunks_step (bs : List Nat) (h : 8 < bs.length) :
    gc_chunks bs = btb_sum (bs.take 8) 0 :: gc_chunks (bs.drop 8) := by
  cases bs with
  | nil => simp at h
  | cons a bs2 =>
    simp only [gc_chunks, List.length_cons]
    simp only [chunk8F]
    cases hdd : (a :: bs2).drop 8 with
    | nil =>
      have := congrArg List.length hdd
      simp only [List.length_drop, List.length_cons, List.length_nil] at this
      simp only [List.length_cons] at h
      omega
    | cons c cs =>
      have hlen : (c :: cs).length ≤ bs2.length := by
        have := congrArg List.length hdd
        simp only [List.length_drop, List.length_cons] at this ⊢
        omega
      rw [List.map_cons]
      rw [hdd] at *
      simp only [gc_chunks]
      rw [chunk8F_fuel bs2.length (c :: cs) (c :: cs).length hlen le_rfl]

/-- The byte-emission loop agrees with the chunked concatenation whenever
    every code used is a nonempty bit-string of at most 8 bits and the
    invariants on the running state hold. -/
theorem gc_loop_spec : ∀ (text : List Nat) (codes : List (Nat × List Nat))
    (bits byte y : List Nat),
    bits_of_text codes text = some bits →
    (∀ p ∈ codes, 1 ≤ p.2.length ∧ p.2.length ≤ 8 ∧ ∀ b ∈ p.2, b ≤ 1) →
    byte.length ≤ 8 → (∀ b ∈ byte, b ≤ 1) → (∀ v ∈ y, v < 256) →
    gc_loop codes text byte y = some (y ++ gc_chunks (byte ++ bits)) := by
  intro text
  induction text with
  | nil =>
    intro codes bits byte y hbits hcodes hblen hbbits hy
    simp only [bits_of_text, Option.some.injEq] at hbits
    subst hbits
    simp only [gc_loop, bits_to_byte, if_pos hblen]
    have hlt : btb_sum byte 0 < 256 := by
      have := btb_lt byte 0 hbbits (by omega)
      simpa using this
    have hall : ∀ v ∈ y ++ [btb_sum byte 0], v < 256 := by
      intro v hv
      rcases List.mem_append.mp hv with hv | hv
      · exact hy v hv
      · simp only [List.mem_singleton] at hv
        subst hv
        exact hlt
    rw [List.append_nil, gc_chunks_short byte hblen]
    unfold mk_bytes
    rw [if_pos (by
      simp only [List.all_eq_true, decide_eq_true_eq]
      exact hall)]
  | cons i rest ih =>
    intro codes bits byte y hbits hcodes hblen hbbits hy
    simp only [bits_of_text] at hbits
    cases hg : dict_get codes i with
    | none => rw [hg] at hbits; exact absurd hbits (by simp)
    | some c =>
      rw [hg] at hbits
      cases hb2 : bits_of_text codes rest with
      | none => rw [hb2] at hbits; exact absurd hbits (by simp)
      | some bs2 =>
        rw [hb2] at hbits
        simp only [Option.some.injEq] at hbits
        subst hbits
        obtain ⟨hc1, hc8, hcb⟩ := hcodes (i, c) (dict_get_mem codes i c hg)
        replace hc1 : 1 ≤ c.length := hc1
        replace hc8 : c.length ≤ 8 := hc8
        replace hcb : ∀ b ∈ c, b ≤ 1 := hcb
        simp only [gc_loop, hg]
        split
        · rename_i hgt
          have htk : ((byte ++ c).take 8).length = 8 := by
            simp only [List.length_take, List.length_append]
            omega
          have htkb : ∀ b ∈ (byte ++ c).take 8, b ≤ 1 := by
            intro b hb
            rcases List.mem_append.mp (List.take_subset 8 _ hb) with hb | hb
            · exact hbbits b hb
            · exact hcb b hb
          have he : btb_sum ((byte ++ c).take 8) 0 < 256 := by
            have := btb_lt _ 0 htkb (by rw [htk])
            simpa using this
          simp only [bits_to_byte, htk]
          rw [if_pos (by omega)]
          show gc_loop codes rest ((byte ++ c).drop 8)
              (y ++ [btb_sum ((byte ++ c).take 8) 0]) =
            some (y ++ gc_chunks (byte ++ (c ++ bs2)))
          rw [ih codes bs2 ((byte ++ c).drop 8) (y ++ [btb_sum ((byte ++ c).take 8) 0])
            hb2 hcodes
            (by simp only [List.length_drop, List.length_append]; omega)
            (fun b hb => (fun hbm => by
              rcases List.mem_append.mp hbm with hb2m | hb2m
              · exact hbbits b hb2m
              · exact hcb b hb2m) (List.drop_subset 8 _ hb))
            (by
              intro v hv
              rcases List.mem_append.mp hv with hv | hv
              · exact hy v hv
              · simp only [List.mem_singleton] at hv
                subst hv
                exact he)]
          have hstep : gc_chunks (byte ++ (c ++ bs2)) =
              btb_sum ((byte ++ c).take 8) 0 :: gc_chunks ((byte ++ c).drop 8 ++ bs2) := by
            rw [← List.append_assoc]
            rw [gc_chunks_step (byte ++ c ++ bs2)
              (by simp only [List.length_append]; omega)]
            congr 1
            · congr 1
              rw [List.take_append_eq_append_take]
              have h0 : 8 - (byte ++ c).length = 0 := by
                simp only [List.length_append]; omega
              rw [h0]
              simp
            · congr 1
              rw [List.drop_append_eq_append_drop]
              have h0 : 8 - (byte ++ c).length = 0 := by
                simp only [List.length_append]; omega
              rw [h0]
              simp
          rw [hstep]
          simp
        · rename_i hle
          rw [ih codes bs2 (byte ++ c) y hb2 hcodes
            (by simp only [List.length_append] at hle ⊢; omega)
            (by
              intro b hb
              rcases List.mem_append.mp hb with hb | hb
              · exact hbbits b hb
              · exact hcb b hb)
            hy]
          rw [List.append_assoc]

/-! ## Claim theorems (concrete evaluations) -/

/-- C1: the round-trip `decompress(compress(B)) = B` fails on the code for a
    single-repeated-byte buffer: compressing `[65]` raises (`get_codes` hits
    the degenerate root's absent right child), so no container is produced;
    on a buffer with several distinct bytes the round-trip does hold. -/
theorem C1_roundtrip_single_byte_crash :
    compress [65] = none ∧
    (compress [65, 66, 67, 66]).bind uncompress = some [65, 66, 67, 66] := by
  exact ⟨rfl, rfl⟩

/-- C3 (counterexample): compressing the empty buffer does not succeed
    degenerately — it fails outright, contradicting the claimed empty
    container output. -/
theorem C3_counterexample : compress [] = none := rfl

/-- C3 (amended): compressing a zero-length buffer fails: the tree builder
    raises on the empty frequency table (`take_min` on an empty working
    list), so `compress` produces no container at all. -/
theorem C3_empty_input_fails :
    huffman_tree (make_freq_dict []) = none ∧ compress [] = none := ⟨rfl, rfl⟩

/-- C4: for a one-symbol frequency table the builder does return the
    degenerate internal root with a left leaf and absent right child, but the
    code-table generator then raises on the absent right child instead of
    assigning the code "0". -/
theorem C4_degenerate_tree_codes (s w : Nat) :
    huffman_tree [(s, w)] = some (HuffmanNode.node1 (HuffmanNode.leaf s)) ∧
    get_codes (HuffmanNode.node1 (HuffmanNode.leaf s)) = none := ⟨rfl, rfl⟩

/-- C5: on the single-symbol frequency table (text `[65, 65, 65]`) no code
    table is produced at all (the generator raises on the degenerate tree),
    contradicting the for-every-non-empty-table claim; on the textbook
    weight set {5, 9, 12, 13, 16, 45} the built tree's code table does have
    weighted total length 224. -/
theorem C5_weighted_length :
    ((huffman_tree (make_freq_dict (List.replicate 3 65))).bind get_codes) = none ∧
    ((huffman_tree freq6).bind get_codes).map (weighted_length freq6) = some 224 := by
  exact ⟨rfl, rfl⟩

/-- C2 (counterexample): the tree built from `exFreq` serializes to
    `exRecs`, but the postorder-implicit reconstruction returns a different
    tree — its first-in-first-out dequeue attaches the earliest completed
    subtree (the root's left child) where the most recently completed one
    belongs. -/
theorem C2_counterexample :
    huffman_tree exFreq = some exTree ∧
    ttb_aux exTree 0 = some (exRecs, 4) ∧
    generate_tree_postorder exRecs 3 =
      some (.node2 (.node2 (.leaf 100) (.leaf 101))
                   (.node2 (.leaf 99) (.node2 (.leaf 97) (.leaf 98)))) ∧
    HuffmanNode.node2 (.node2 (.leaf 100) (.leaf 101))
        (.node2 (.leaf 99) (.node2 (.leaf 97) (.leaf 98))) ≠ exTree := by
  refine ⟨rfl, rfl, rfl, by decide⟩

/-- C2 (amended): for every tree the Tree Builder produces from a frequency
    table with at least two entries (necessarily a full binary tree), the
    serialized record table reconstructs to a structurally identical tree
    under the index-addressed strategy rooted at count minus one.  (The
    postorder-implicit strategy does not round-trip — see the
    counterexample — and serializing the degenerate single-symbol tree
    fails.) -/
theorem C2_index_reconstruction (freq : List (Nat × Nat)) (t : HuffmanNode)
    (hlen : 2 ≤ freq.length) (ht : huffman_tree freq = some t) :
    ∃ (recs : List ReadNode) (n : Nat),
      ttb_aux t 0 = some (recs, n) ∧ generate_tree_general recs (n - 1) = some t := by
  have hloop_eq :
      hloop (freq.map (fun p => (HKey.sym p.1, p.2))).length
        (freq.map (fun p => (HKey.sym p.1, p.2))) = some t := by
    cases freq with
    | nil => simp at hlen
    | cons p tl =>
      cases tl with
      | nil => simp at hlen
      | cons q tl2 => simpa [huffman_tree] using ht
  have hfull : FullB t ∧ ∃ l r, t = HuffmanNode.node2 l r := by
    refine hloop_full _ _ t ?_ hloop_eq
    intro pr hpr t0 hpt
    simp only [List.mem_map] at hpr
    obtain ⟨a, _, rfl⟩ := hpr
    exact absurd hpt (by simp)
  obtain ⟨hfb, l, r, rfl⟩ := hfull
  have hser := ttb_agree hfb l r rfl 0
  refine ⟨serPost (HuffmanNode.node2 l r) 0, 0 + icount (HuffmanNode.node2 l r), hser, ?_⟩
  unfold generate_tree_general
  have hwin : ∀ j, j < icount (HuffmanNode.node2 l r) →
      (serPost (HuffmanNode.node2 l r) 0)[0 + j]? =
        (serPost (HuffmanNode.node2 l r) 0)[j]? := by
    intro j hj; rw [Nat.zero_add]
  exact gtg_serPost hfb l r rfl 0 (serPost (HuffmanNode.node2 l r) 0)
    ((serPost (HuffmanNode.node2 l r) 0).length + 1) hwin
    (by rw [serPost_length]; omega)

/-- C2 witness: the round-trip instantiated on the doctest tree built from
    the frequency table {2: 6, 3: 4}. -/
theorem C2_witness :
    ∃ (recs : List ReadNode) (n : Nat),
      ttb_aux (HuffmanNode.node2 (.leaf 3) (.leaf 2)) 0 = some (recs, n) ∧
      generate_tree_general recs (n - 1) =
        some (HuffmanNode.node2 (.leaf 3) (.leaf 2)) :=
  C2_index_reconstruction [(2, 6), (3, 4)] _ (by decide) (by decide)

/-- C6 (counterexample): on the empty input the packer does not emit nothing
    (as the claim's description implies); it emits one zero byte. -/
theorem C6_counterexample :
    generate_compressed [] codes012 = some [0] ∧
    pack_spec codes012 [] = some [] ∧
    (some [0] : Option (List Nat)) ≠ some [] := ⟨rfl, rfl, by decide⟩

/-- C6 (amended): for every non-empty input and covering code table whose
    codes are non-empty bit-strings of at most 8 bits, the packer output is
    exactly the MSB-first concatenation of the codes split into bytes with
    the final partial byte right-padded with zero bits (`pack_spec`), and the
    two concrete examples hold.  (On empty input the packer emits one zero
    byte instead of nothing — see the counterexample — and a code longer
    than 8 bits can leave more than 8 buffered bits at the end, which
    raises.) -/
theorem C6_packer :
    (∀ (text : List Nat) (codes : List (Nat × List Nat)) (bits : List Nat),
        text ≠ [] →
        bits_of_text codes text = some bits →
        (∀ p ∈ codes, 1 ≤ p.2.length ∧ p.2.length ≤ 8 ∧ ∀ b ∈ p.2, b ≤ 1) →
        generate_compressed text codes = pack_spec codes text) ∧
    generate_compressed [1, 2, 1, 0] codes012 = some [184] ∧
    generate_compressed [1, 2, 1, 0, 2] codes012 = some [185, 128] := by
  refine ⟨?_, rfl, rfl⟩
  intro text codes bits hne hbits hcodes
  unfold generate_compressed pack_spec
  rw [hbits]
  rw [gc_loop_spec text codes bits [] [] hbits hcodes (by simp) (by simp) (by simp)]
  simp only [List.nil_append]
  have hbne : bits ≠ [] := by
    cases text with
    | nil => exact absurd rfl hne
    | cons i rest =>
      simp only [bits_of_text] at hbits
      cases hg : dict_get codes i with
      | none => rw [hg] at hbits; exact absurd hbits (by simp)
      | some c =>
        rw [hg] at hbits
        cases hb2 : bits_of_text codes rest with
        | none => rw [hb2] at hbits; exact absurd hbits (by simp)
        | some bs2 =>
          rw [hb2] at hbits
          simp only [Option.some.injEq] at hbits
          subst hbits
          obtain ⟨hc1, _, _⟩ := hcodes (i, c) (dict_get_mem codes i c hg)
          replace hc1 : 1 ≤ c.length := hc1
          intro hcon
          rw [List.append_eq_nil] at hcon
          rw [hcon.1] at hc1
          exact absurd hc1 (by simp)
  cases bits with
  | nil => exact absurd rfl hbne
  | cons b bs => rfl

/-- C6 witness: the general conjunct instantiated on the two-symbol input
    `[1, 2]` with the example code table. -/
theorem C6_witness :
    generate_compressed [1, 2] codes012 = pack_spec codes012 [1, 2] :=
  C6_packer.1 [1, 2] codes012 [1, 0, 1, 1] (by decide) (by decide) (by decide)

/-- C7 (counterexample): a container whose bitstream is exhausted before the
    declared symbol count (100) is reached does not make decompression fail —
    it silently returns the six symbols decoded so far. -/
theorem C7_counterexample :
    uncompress exhaustedContainer = some [65, 66, 67, 66, 66, 66] := rfl

/-- C8: the postorder-implicit reconstruction never consults its
    `root_index` argument: any two index values give identical results. -/
theorem C8_root_index_ignored (lst : List ReadNode) (i j : Int) :
    generate_tree_postorder lst i = generate_tree_postorder lst j := rfl

/-- C10: for every byte value, `byte_to_bits` yields exactly 8 bits, each 0
    or 1, and `bits_to_byte` inverts it. -/
theorem C10_byte_bits_roundtrip :
    ∀ b : Fin 256,
      (byte_to_bits b.val).length = 8 ∧
      (∀ c ∈ byte_to_bits b.val, c = 0 ∨ c = 1) ∧
      bits_to_byte (byte_to_bits b.val) = some b.val := by decide

/-- C9: the decoding loop stops by count: whenever `generate_uncompressed`
    returns a byte list, its length never exceeds the requested size, no
    matter the tree, packed bytes, or trailing pad bits. -/
theorem C9_unpacker_length_bound (tree : HuffmanNode) (text : List Nat) (size : Nat)
    (out : List Nat) (h : generate_uncompressed tree text size = some out) :
    out.length ≤ size := by
  unfold generate_uncompressed at h
  cases hgc : get_codes tree with
  | none => rw [hgc] at h; exact absurd h (by simp)
  | some freq =>
    rw [hgc] at h
    rw [mk_bytes_some h]
    exact gu_outer_length _ size text [] 0 1 [] (Nat.zero_le _)

/-- C9 witness: a concrete run decoding three symbols from one byte. -/
theorem C9_witness : ([2, 1, 1] : List Nat).length ≤ 3 :=
  C9_unpacker_length_bound (HuffmanNode.node2 (.leaf 1) (.leaf 2)) [128] 3 [2, 1, 1] rfl

/-- C7 (amended): a reference index at or beyond the record table makes the
    index-addressed reconstruction fail (no tree, so decompression fails), as
    the concrete bad-reference container confirms; but a container whose
    bitstream is exhausted before its declared count (100) does not fail — it
    silently returns a truncated 6-symbol result. -/
theorem C7_malformed_container :
    (∀ (lst : List ReadNode) (i : Nat), lst.length ≤ i → generate_tree_general lst i = none) ∧
    uncompress [1, 1, 5, 0, 7, 4, 0, 0, 0] = none ∧
    (uncompress exhaustedContainer).map List.length = some 6 := by
  refine ⟨?_, rfl, rfl⟩
  intro lst i hle
  unfold generate_tree_general
  simp only [gtg_fuel]
  rw [List.getElem?_eq_none hle]

/-- C7 witness: the out-of-range conjunct applied at the empty table. -/
theorem C7_witness : generate_tree_general [] 0 = none :=
  C7_malformed_container.1 [] 0 (by decide)

end HuffmanPy
